import Mathlib

/-!
# Verification of `apathy` path manipulation (src/path.hpp)

Shallow embedding of the `apathy::Path` class.  A path is its backing
buffer, modelled as a `List Char`.  The current working directory (the
result of the `getcwd` system call inside `Path::cwd`) is passed as an
explicit parameter `wd` to the operations that consult it.
-/

namespace Apathy

/-- The path buffer: `std::string path`. -/
abbrev Str := List Char

/-- `static const char separator = '/'`. -/
def separator : Char := '/'

/-- String literal helper. -/
def str (s : String) : Str := s.toList

/-- `Path::trim`: the erase loop removes exactly the maximal run of
trailing separator characters (each step erases the current last
character while it is a separator, guarded by the original length). -/
def trim (p : Str) : Str :=
  (p.reverse.dropWhile (fun c => c == separator)).reverse

/-- `Path::append`: `trim(); path.push_back(separator); path.append(segment.path)`. -/
def append (a segment : Str) : Str :=
  trim a ++ separator :: segment

/-- `Path::join(a, b)`: copy of `a` with `append(b)` applied. -/
def join (a b : Str) : Str := append a b

/-- `Path::directory`: `trim(); path.push_back(separator)`. -/
def directory (p : Str) : Str :=
  trim p ++ [separator]

/-- `Path::is_absolute`: `path.size() && path[0] == separator`. -/
def is_absolute (p : Str) : Bool :=
  match p with
  | [] => false
  | c :: _ => c == separator

/-- `Path::cwd()`: the `getcwd` buffer (`wd`), made a directory. -/
def cwd (wd : Str) : Str := directory wd

/-- `Path::absolute`: if not absolute, replace with `join(cwd(), path)`. -/
def absolute (wd p : Str) : Str :=
  if is_absolute p then p else join (cwd wd) p

/-- `Path::relative`: append if `rel` is not absolute, else replace by `rel`. -/
def relative (p rel : Str) : Str :=
  if !(is_absolute rel) then append p rel else rel

/-- `Path::operator+`: builds a default-constructed (empty) path and
appends the segment to it; the receiver `_a` is never read. -/
def plusOp (_a b : Str) : Str :=
  append [] b

/-- `SIZE_MAX + 1`: the modulus of `size_t` arithmetic (64-bit). -/
def USIZE : Nat := 2 ^ 64

/-- `std::string::npos` as a `size_t` value. -/
def npos : Nat := USIZE - 1

/-- Index of the last occurrence of the separator, if any. -/
def lastIdxOfSep : Str → Option Nat
  | [] => none
  | c :: rest =>
    match lastIdxOfSep rest with
    | some i => some (i + 1)
    | none => if c == separator then some 0 else none

/-- `std::string::rfind(separator)`: last index or `npos`. -/
def rfind (p : Str) : Nat :=
  match lastIdxOfSep p with
  | some i => i
  | none => npos

/-- `Path::trailing_slash`: `path.rfind(separator) == (path.length() - 1)`,
with the subtraction performed in `size_t` (mod `2 ^ 64`) arithmetic. -/
def trailing_slash (p : Str) : Bool :=
  rfind p == (p.length + (USIZE - 1)) % USIZE

/-! ## Basic lemmas about `trim` -/

theorem trim_nil : trim [] = [] := rfl

theorem trim_append_sep (x : Str) : trim (x ++ [separator]) = trim x := by
  simp [trim, List.dropWhile_cons]

theorem trim_of_last_ne_sep (q : Str) (c : Char) (h : ¬ c = separator) :
    trim (q ++ [c]) = q ++ [c] := by
  simp [trim, List.dropWhile_cons, h]

theorem dropWhile_idem (p : Char → Bool) (l : Str) :
    (l.dropWhile p).dropWhile p = l.dropWhile p := by
  induction l with
  | nil => rfl
  | cons c rest ih =>
    by_cases h : p c = true
    · simpa [List.dropWhile_cons_of_pos h] using ih
    · simp [List.dropWhile_cons_of_neg h]

theorem trim_idem (p : Str) : trim (trim p) = trim p := by
  unfold trim
  rw [List.reverse_reverse, dropWhile_idem]

/-- Dropping separators stops no later than a non-separator element. -/
theorem dropWhile_append_cons (l m : Str) (d : Char)
    (hd : (d == separator) = false) :
    (l ++ d :: m).dropWhile (fun c => c == separator)
      = l.dropWhile (fun c => c == separator) ++ d :: m := by
  induction l with
  | nil => simp [List.dropWhile_cons, hd]
  | cons c rest ih =>
    by_cases h : (c == separator) = true
    · simpa [List.dropWhile_cons, h] using ih
    · simp [List.dropWhile_cons, h]

/-- Trailing separators of `x ++ d :: b` are stripped only within
`d :: b` when `d` is not a separator. -/
theorem trim_append_cons (x b : Str) (d : Char)
    (hd : (d == separator) = false) :
    trim (x ++ d :: b) = x ++ trim (d :: b) := by
  unfold trim
  have h1 : (x ++ d :: b).reverse = b.reverse ++ d :: x.reverse := by
    simp
  have h2 : (d :: b).reverse = b.reverse ++ d :: ([] : Str) := by
    simp
  rw [h1, h2, dropWhile_append_cons _ _ _ hd, dropWhile_append_cons _ _ _ hd]
  simp

/-! ## Claim C5: associativity of append -/

/-- C5 (counterexample): with `a = "x"`, `b = ""`, `c = "y"` — where `b`
and `c` are both non-absolute — `a.append(b).append(c)` is `"x/y"` while
`a.append(join(b, c))` is `"x//y"`; the claimed associativity fails
because appending the empty segment leaves a trailing separator that the
next `append` trims, while `join("", c)` produces `"/y"` whose extra
separator survives. -/
theorem append_assoc_counterexample :
    is_absolute (str "") = false ∧ is_absolute (str "y") = false ∧
    append (append (str "x") (str "")) (str "y")
      ≠ append (str "x") (join (str "") (str "y")) := by
  refine ⟨rfl, rfl, ?_⟩
  decide

/-- C5 (amended): `a.append(b).append(c) == a.append(join(b, c))` for all
paths `a` and all non-absolute, *non-empty* `b` (and non-absolute `c`);
the empty segment `b` is the only non-absolute value for which it fails. -/
theorem append_assoc_amended (a b c : Str)
    (hb : is_absolute b = false) (hbne : b ≠ [])
    (_hc : is_absolute c = false) :
    append (append a b) c = append a (join b c) := by
  obtain ⟨d, b', rfl⟩ : ∃ d b', b = d :: b' := by
    cases b with
    | nil => exact absurd rfl hbne
    | cons d b' => exact ⟨d, b', rfl⟩
  have hd : (d == separator) = false := by
    cases hdd : (d == separator) with
    | true => simp [is_absolute, hdd] at hb
    | false => rfl
  simp only [join, append]
  have h1 : trim (trim a ++ separator :: d :: b')
      = (trim a ++ [separator]) ++ trim (d :: b') := by
    have := trim_append_cons (trim a ++ [separator]) b' d hd
    simpa using this
  rw [h1]
  simp

/-- C5 witness: the amended associativity at `a = "x"`, `b = "q"`, `c = "y"`. -/
theorem append_assoc_amended_witness :
    append (append (str "x") (str "q")) (str "y")
      = append (str "x") (join (str "q") (str "y")) :=
  append_assoc_amended (str "x") (str "q") (str "y") rfl (by decide) rfl

/-! ## Claim C9: operator+ ignores the receiver -/

/-- C9: `a + b` default-constructs a path and appends `b`, so the result
is the separator followed by `b`'s raw text, for every `a`; and it
differs from `Path(a).append(b)` exactly when `a`'s trimmed buffer is
non-empty. -/
theorem plusOp_ignores_receiver (a b : Str) :
    plusOp a b = separator :: b ∧ (trim a ≠ [] → plusOp a b ≠ append a b) := by
  constructor
  · rfl
  · intro h heq
    apply h
    have hlen := congrArg List.length heq
    simp only [plusOp, append, trim_nil, List.nil_append, List.length_cons,
      List.length_append] at hlen
    exact List.length_eq_zero.mp (by omega)

/-- C9 witness: at `a = "x"`, `b = "y"` the hypothesis `trim a ≠ []`
holds and `a + b = "/y" ≠ "x/y" = a.append(b)`. -/
theorem plusOp_ignores_receiver_witness :
    plusOp (str "x") (str "y") = separator :: str "y" ∧
    plusOp (str "x") (str "y") ≠ append (str "x") (str "y") :=
  ⟨(plusOp_ignores_receiver (str "x") (str "y")).1,
   (plusOp_ignores_receiver (str "x") (str "y")).2 (by decide)⟩

/-! ## Claim C10: trailing_slash and size_t underflow -/

theorem lastIdxOfSep_append_sep (q : Str) :
    lastIdxOfSep (q ++ [separator]) = some q.length := by
  induction q with
  | nil => rfl
  | cons c rest ih => simp [lastIdxOfSep, ih]

theorem lastIdxOfSep_append_nonsep (q : Str) (c : Char) (h : ¬ c = separator) :
    lastIdxOfSep (q ++ [c]) = lastIdxOfSep q := by
  induction q with
  | nil => simp [lastIdxOfSep, h]
  | cons d rest ih => simp [lastIdxOfSep, ih]

theorem lastIdxOfSep_lt_length (p : Str) (i : Nat)
    (h : lastIdxOfSep p = some i) : i < p.length := by
  induction p generalizing i with
  | nil => simp [lastIdxOfSep] at h
  | cons c rest ih =>
    simp only [lastIdxOfSep] at h
    cases hrest : lastIdxOfSep rest with
    | some j =>
      rw [hrest] at h
      cases h
      exact Nat.succ_lt_succ (ih j hrest)
    | none =>
      rw [hrest] at h
      by_cases hc : (c == separator) = true
      · simp [hc] at h
        subst h
        simp
      · simp [hc] at h

/-- C10: on the empty buffer `rfind` yields `npos` while
`path.length() - 1` underflows (mod `2 ^ 64`) to `npos` as well, so the
comparison succeeds and the empty path — which contains no separator at
all — is reported as having a trailing slash; on every non-empty buffer
(of realistic `size_t` length) `trailing_slash` is true exactly when the
last character is the separator. -/
theorem trailing_slash_spec :
    trailing_slash [] = true ∧
    ∀ (p : Str), p.length < USIZE → ∀ (h : p ≠ []),
      (trailing_slash p = true ↔ p.getLast h = separator) := by
  constructor
  · decide
  · intro p hlen h
    obtain ⟨q, c, rfl⟩ : ∃ q c, p = q ++ [c] := by
      refine ⟨p.dropLast, p.getLast h, ?_⟩
      exact (List.dropLast_append_getLast h).symm
    have hlast : (q ++ [c]).getLast h = c := by
      simp
    rw [hlast]
    have hlenq : (q ++ [c]).length = q.length + 1 := by simp
    have hmod : ((q ++ [c]).length + (USIZE - 1)) % USIZE = q.length := by
      rw [hlenq]
      have : q.length + 1 + (USIZE - 1) = q.length + USIZE := by
        have : 1 ≤ USIZE := by decide
        omega
      rw [this, Nat.add_mod_right]
      exact Nat.mod_eq_of_lt (by rw [hlenq] at hlen; omega)
    constructor
    · intro htr
      by_contra hc
      unfold trailing_slash rfind at htr
      rw [hmod] at htr
      rw [lastIdxOfSep_append_nonsep q c hc] at htr
      cases hlast2 : lastIdxOfSep q with
      | some i =>
        rw [hlast2] at htr
        have hi := lastIdxOfSep_lt_length q i hlast2
        have : i = q.length := by simpa using htr
        omega
      | none =>
        rw [hlast2] at htr
        have hq : npos = q.length := by simpa using htr
        unfold npos at hq
        rw [hlenq] at hlen
        omega
    · intro hc
      unfold trailing_slash rfind
      rw [hmod, hc, lastIdxOfSep_append_sep]
      simp

/-- C10 witness: the theorem applied at `p = "a/"`, whose length is below
`2 ^ 64` and whose last character is the separator. -/
theorem trailing_slash_spec_witness :
    trailing_slash (str "a/") = true :=
  (trailing_slash_spec.2 (str "a/") (by decide) (by decide)).mpr (by decide)

/-! ## `Path::sanitize`

The scanning loop of `sanitize` walks the buffer: skip a run of
separators; if the end was reached push a terminal empty segment and
stop; otherwise cut the segment up to the next separator (`pos`) or the
end of the buffer (`npos`).  A `".."` segment pops the accumulator if
non-empty, and on an empty accumulator of a non-absolute path the whole
call restarts as `absolute().sanitize()` (signalled here by `none`).  A
`"."` segment is dropped, anything else is pushed.  When no further
separator was found (`pos == npos`) the loop exits after processing the
segment.  The loop is fuel-indexed so that it stays computable; the fuel
`length + 1` used by `sanitizeCore` is never exhausted since every
iteration consumes at least one character. -/

/-- The `".."` segment. -/
def dotdot : Str := ['.', '.']

/-- The `"."` segment. -/
def dot : Str := ['.']

/-- The segment-scanning loop of `Path::sanitize` (fuel-indexed).
`rest1` is the buffer after skipping the run of separators; an empty
`rest1` is the `end == path.length()` exit pushing the terminal marker.
`seg` is the segment up to the next separator, `rest2` the remainder
from that separator (empty exactly when `pos == npos`).  The restart
`return absolute().sanitize()` is signalled by `none`; the `".."` pop on
a non-empty accumulator and the no-op `".."` on an empty accumulator of
an absolute path are both `segs.dropLast` (`dropLast [] = []`).  The
loop exits after processing a segment with no following separator. -/
def sanitizeLoop (isAbs : Bool) : Nat → Str → List Str → Option (List Str)
  | 0, _, _ => none
  | fuel + 1, rest, segs =>
    let rest1 := rest.dropWhile (fun c => c == separator)
    if rest1 = [] then some (segs ++ [[]])
    else
      let seg := rest1.takeWhile (fun c => !(c == separator))
      let rest2 := rest1.dropWhile (fun c => !(c == separator))
      if seg = dotdot ∧ segs = [] ∧ isAbs = false then none
      else
        let segs1 :=
          if seg = dotdot then segs.dropLast
          else if seg = dot then segs
          else segs ++ [seg]
        if rest2 = [] then some segs1
        else sanitizeLoop isAbs fuel rest2.tail segs1

/-- `path.find(".") == 0`: the buffer begins with a `'.'` character. -/
def startsWithDot (p : Str) : Bool :=
  match p with
  | [] => false
  | c :: _ => c == '.'

/-- The reassembly step of `sanitize`: segments joined by single
separators (`path += segments[pos]; if (pos < size-1) path += "/"`). -/
def joinSegs : List Str → Str
  | [] => []
  | [s] => s
  | s :: rest => s ++ separator :: joinSegs rest

/-- The re-seed of the buffer after the scan: the working directory when
the original buffer began with `'.'` (`path = cwd().string()`), a single
separator when absolute (`path = std::string(1, separator)`), else
empty. -/
def sanitizeSeed (wd p : Str) : Str :=
  if startsWithDot p then cwd wd
  else if is_absolute p then [separator]
  else []

/-- One full pass of `Path::sanitize`: scan, then re-seed and join the
collected segments.  `none` when the scan requested the restart
`return absolute().sanitize()`. -/
def sanitizeCore (wd p : Str) : Option Str :=
  match sanitizeLoop (is_absolute p) (p.length + 1) p [] with
  | none => none
  | some segs => some (sanitizeSeed wd p ++ joinSegs segs)

/-- `Path::sanitize`, with the restart `return absolute().sanitize()`
expanded once: after `absolute()` the path is absolute (for any sane
working directory) and the scan can no longer restart.  The final `[]`
is unreachable then; were `cwd()` itself relative, the C++ recursion
would not terminate at all. -/
def sanitize (wd p : Str) : Str :=
  match sanitizeCore wd p with
  | some r => r
  | none =>
    match sanitizeCore wd (absolute wd p) with
    | some r => r
    | none => []

/-! Sanity checks against the scenarios recorded in the spec (§8). -/

example : sanitize (str "/home") (str "foo///bar/a/b/../c") = str "foo/bar/a/c" := by
  decide

example : sanitize (str "/home") (str "/../../a/b////c") = str "/a/b/c" := by
  decide

example : sanitize (str "/home") (str "/./././a/./b/../../c") = str "/c" := by
  decide

example : sanitize (str "/home") (str "././a/b/c/") = str "/home/a/b/c/" := by
  decide

example : sanitize (str "/home") (str "../foo") = str "/foo" := by
  decide

/-- C1 (counterexample): with working directory `"/home"`, sanitizing
`"a/../.b"` yields `".b"`, but sanitizing again yields `"/home/.b"`:
the first result begins with `'.'`, so the second pass re-seeds the
buffer from the current working directory (`path.find(".") == 0`
branch).  `sanitize` is therefore not idempotent on all inputs. -/
theorem sanitize_idempotent_counterexample :
    sanitize (str "/home") (sanitize (str "/home") (str "a/../.b"))
      ≠ sanitize (str "/home") (str "a/../.b") := by
  decide

/-! ## Clean segments and the structure of sanitized output -/

/-- A segment that the scan of `sanitize` can have pushed: non-empty,
separator-free, and neither `"."` nor `".."`. -/
def cleanSeg (s : Str) : Prop :=
  s ≠ [] ∧ (∀ c ∈ s, (c == separator) = false) ∧ s ≠ dot ∧ s ≠ dotdot

/-- Every element is a clean segment. -/
def cleanSegs (l : List Str) : Prop := ∀ s ∈ l, cleanSeg s

/-- Shape of the segment list produced by the scan: clean segments,
optionally followed by one terminal empty (directory) marker. -/
def SegShape (l : List Str) : Prop :=
  cleanSegs l ∨ ∃ ws, cleanSegs ws ∧ l = ws ++ [[]]

theorem cleanSegs_nil : cleanSegs [] := by
  intro s hs
  cases hs

theorem cleanSegs_append {xs ys : List Str}
    (hx : cleanSegs xs) (hy : cleanSegs ys) : cleanSegs (xs ++ ys) := by
  intro s hs
  rcases List.mem_append.mp hs with h | h
  · exact hx s h
  · exact hy s h

theorem cleanSegs_dropLast {l : List Str} (h : cleanSegs l) :
    cleanSegs l.dropLast := by
  intro s hs
  exact h s (List.mem_of_mem_dropLast hs)

/-! Auxiliary takeWhile/dropWhile facts for separator-free segments. -/

theorem length_dropWhile_le (p : Char → Bool) (l : Str) :
    (l.dropWhile p).length ≤ l.length := by
  induction l with
  | nil => simp
  | cons c rest ih =>
    by_cases h : p c = true
    · simp only [List.dropWhile_cons, h, if_true, List.length_cons]
      omega
    · simp [List.dropWhile_cons, h]

theorem dropWhile_sep_cons_nonsep (c : Char) (l : Str)
    (hc : (c == separator) = false) :
    (c :: l).dropWhile (fun x => x == separator) = c :: l := by
  simp [List.dropWhile_cons, hc]

theorem takeWhile_nonsep_append_sep (s r : Str)
    (hs : ∀ c ∈ s, (c == separator) = false) :
    (s ++ separator :: r).takeWhile (fun c => !(c == separator)) = s := by
  induction s with
  | nil => simp [List.takeWhile_cons]
  | cons c rest ih =>
    have hc := hs c (by simp)
    simp only [List.cons_append, List.takeWhile_cons, hc]
    simp only [Bool.not_false, if_true]
    rw [ih (fun x hx => hs x (by simp [hx]))]

theorem dropWhile_nonsep_append_sep (s r : Str)
    (hs : ∀ c ∈ s, (c == separator) = false) :
    (s ++ separator :: r).dropWhile (fun c => !(c == separator))
      = separator :: r := by
  induction s with
  | nil => simp [List.dropWhile_cons]
  | cons c rest ih =>
    have hc := hs c (by simp)
    simp only [List.cons_append, List.dropWhile_cons, hc]
    simp only [Bool.not_false, if_true]
    exact ih (fun x hx => hs x (by simp [hx]))

theorem takeWhile_nonsep_all (s : Str)
    (hs : ∀ c ∈ s, (c == separator) = false) :
    s.takeWhile (fun c => !(c == separator)) = s := by
  induction s with
  | nil => rfl
  | cons c rest ih =>
    have hc := hs c (by simp)
    simp only [List.takeWhile_cons, hc, Bool.not_false, if_true]
    rw [ih (fun x hx => hs x (by simp [hx]))]

theorem dropWhile_nonsep_all (s : Str)
    (hs : ∀ c ∈ s, (c == separator) = false) :
    s.dropWhile (fun c => !(c == separator)) = [] := by
  induction s with
  | nil => rfl
  | cons c rest ih =>
    have hc := hs c (by simp)
    simp only [List.dropWhile_cons, hc, Bool.not_false, if_true]
    exact ih (fun x hx => hs x (by simp [hx]))

/-! Facts about `joinSegs`. -/

theorem joinSegs_cons (s : Str) (rest : List Str) (h : rest ≠ []) :
    joinSegs (s :: rest) = s ++ separator :: joinSegs rest := by
  cases rest with
  | nil => exact absurd rfl h
  | cons t ts => rfl

theorem joinSegs_snoc_nil (ws : List Str) (h : ws ≠ []) :
    joinSegs (ws ++ [[]]) = joinSegs ws ++ [separator] := by
  induction ws with
  | nil => exact absurd rfl h
  | cons s rest ih =>
    cases hr : rest with
    | nil => simp [joinSegs]
    | cons t ts =>
      rw [← hr]
      have hne : rest ≠ [] := by simp [hr]
      have h1 : (s :: rest) ++ [[]] = s :: (rest ++ [[]]) := by simp
      rw [h1, joinSegs_cons s (rest ++ [[]]) (by simp),
        joinSegs_cons s rest hne, ih hne]
      simp

theorem joinSegs_append (xs ys : List Str) (hx : xs ≠ []) (hy : ys ≠ []) :
    joinSegs (xs ++ ys) = joinSegs xs ++ separator :: joinSegs ys := by
  induction xs with
  | nil => exact absurd rfl hx
  | cons s rest ih =>
    cases hr : rest with
    | nil =>
      simp only [List.cons_append, List.nil_append]
      rw [joinSegs_cons s ys hy]
      simp [joinSegs]
    | cons t ts =>
      rw [← hr]
      have hne : rest ≠ [] := by simp [hr]
      have h1 : (s :: rest) ++ ys = s :: (rest ++ ys) := by simp
      rw [h1, joinSegs_cons s (rest ++ ys) (by simp [hr]),
        joinSegs_cons s rest hne, ih hne]
      simp

/-- Joining a `[[]]`-terminated prefix with more segments. -/
theorem joinSegs_dir_append (ws zs : List Str) (hz : zs ≠ []) :
    joinSegs (ws ++ [[]]) ++ joinSegs zs = joinSegs (ws ++ zs) := by
  cases hw : ws with
  | nil => simp [joinSegs]
  | cons s rest =>
    rw [← hw]
    have hne : ws ≠ [] := by simp [hw]
    rw [joinSegs_snoc_nil ws hne, joinSegs_append ws zs hne hz]
    simp

/-! Stepping lemmas for the scanning loop. -/

theorem dropWhile_head_not (p : Char → Bool) (l : Str) (c : Char) (r : Str)
    (h : l.dropWhile p = c :: r) : p c = false := by
  have h5 := List.head?_dropWhile_not p l
  rw [h] at h5
  simpa using h5

/-- End of buffer: push the terminal directory marker. -/
theorem sanitizeLoop_nil (isAbs : Bool) (f : Nat) (acc : List Str) :
    sanitizeLoop isAbs (f + 1) [] acc = some (acc ++ [[]]) := by
  simp [sanitizeLoop]

/-- Leading separators are skipped without consuming fuel. -/
theorem sanitizeLoop_skip_sep (isAbs : Bool) (f : Nat) (r : Str)
    (acc : List Str) :
    sanitizeLoop isAbs (f + 1) (separator :: r) acc
      = sanitizeLoop isAbs (f + 1) r acc := by
  simp [sanitizeLoop, List.dropWhile_cons]

/-- A final clean segment (no further separator): pushed, and the loop
exits as `pos == npos`. -/
theorem sanitizeLoop_step_last (isAbs : Bool) (f : Nat) (acc : List Str)
    (s : Str) (hs : cleanSeg s) :
    sanitizeLoop isAbs (f + 1) s acc = some (acc ++ [s]) := by
  obtain ⟨hne, hnosep, hdot, hdotdot⟩ := hs
  obtain ⟨x, s', rfl⟩ : ∃ x s', s = x :: s' := by
    cases s with
    | nil => exact absurd rfl hne
    | cons x s' => exact ⟨x, s', rfl⟩
  simp only [sanitizeLoop]
  rw [dropWhile_sep_cons_nonsep x s' (hnosep x (by simp))]
  rw [takeWhile_nonsep_all (x :: s') hnosep, dropWhile_nonsep_all (x :: s') hnosep]
  simp [hdot, hdotdot]

/-- A clean segment followed by a separator: pushed, and the loop
continues after the separator with one unit of fuel consumed. -/
theorem sanitizeLoop_step_mid (isAbs : Bool) (f : Nat) (acc : List Str)
    (s r : Str) (hs : cleanSeg s) :
    sanitizeLoop isAbs (f + 1) (s ++ separator :: r) acc
      = sanitizeLoop isAbs f r (acc ++ [s]) := by
  obtain ⟨hne, hnosep, hdot, hdotdot⟩ := hs
  obtain ⟨x, s', rfl⟩ : ∃ x s', s = x :: s' := by
    cases s with
    | nil => exact absurd rfl hne
    | cons x s' => exact ⟨x, s', rfl⟩
  simp only [sanitizeLoop, List.cons_append]
  rw [show (x :: (s' ++ separator :: r)).dropWhile (fun c => c == separator)
      = x :: (s' ++ separator :: r) from
    dropWhile_sep_cons_nonsep x _ (hnosep x (by simp))]
  rw [show (x :: (s' ++ separator :: r))
        = (x :: s') ++ separator :: r from by simp]
  rw [takeWhile_nonsep_append_sep (x :: s') r hnosep,
    dropWhile_nonsep_append_sep (x :: s') r hnosep]
  simp [hdot, hdotdot]

/-- Scanning the joined form of non-empty clean segments recovers
exactly those segments. -/
theorem sanitizeLoop_joinSegs (ws : List Str) (hws : cleanSegs ws)
    (h : ws ≠ []) (isAbs : Bool) (acc : List Str) (f : Nat)
    (hf : (joinSegs ws).length + 1 ≤ f) :
    sanitizeLoop isAbs f (joinSegs ws) acc = some (acc ++ ws) := by
  induction ws generalizing acc f with
  | nil => exact absurd rfl h
  | cons s rest ih =>
    have hcs : cleanSeg s := hws s (by simp)
    cases f with
    | zero => omega
    | succ f' =>
      cases hr : rest with
      | nil =>
        subst hr
        show sanitizeLoop isAbs (f' + 1) (joinSegs [s]) acc = some (acc ++ [s])
        simpa [joinSegs] using sanitizeLoop_step_last isAbs f' acc s hcs
      | cons t ts =>
        rw [← hr]
        have hne : rest ≠ [] := by simp [hr]
        rw [joinSegs_cons s rest hne] at hf ⊢
        rw [sanitizeLoop_step_mid isAbs f' acc s (joinSegs rest) hcs]
        have hrest : cleanSegs rest := fun x hx => hws x (by simp [hx])
        have hflen : (joinSegs rest).length + 1 ≤ f' := by
          simp only [List.length_append, List.length_cons] at hf
          omega
        rw [ih hrest hne (acc ++ [s]) f' hflen]
        simp

/-- Scanning the joined form of clean segments followed by a trailing
separator recovers the segments plus the terminal directory marker. -/
theorem sanitizeLoop_joinSegs_dir (ws : List Str) (hws : cleanSegs ws)
    (isAbs : Bool) (acc : List Str) (f : Nat)
    (hf : (joinSegs ws).length + 2 ≤ f) :
    sanitizeLoop isAbs f (joinSegs ws ++ [separator]) acc
      = some (acc ++ ws ++ [[]]) := by
  induction ws generalizing acc f with
  | nil =>
    cases f with
    | zero => omega
    | succ f' =>
      show sanitizeLoop isAbs (f' + 1) (joinSegs [] ++ [separator]) acc
        = some (acc ++ [] ++ [[]])
      rw [show joinSegs [] ++ [separator] = separator :: ([] : Str) from rfl]
      rw [sanitizeLoop_skip_sep, sanitizeLoop_nil]
      simp
  | cons s rest ih =>
    have hcs : cleanSeg s := hws s (by simp)
    cases f with
    | zero => omega
    | succ f' =>
      cases hr : rest with
      | nil =>
        subst hr
        have h1 : joinSegs [s] ++ [separator] = s ++ separator :: [] := by
          simp [joinSegs]
        rw [h1, sanitizeLoop_step_mid isAbs f' acc s [] hcs]
        cases f' with
        | zero =>
          exfalso
          simp only [joinSegs] at hf
          omega
        | succ f'' =>
          rw [sanitizeLoop_nil]
      | cons t ts =>
        rw [← hr]
        have hne : rest ≠ [] := by simp [hr]
        have h1 : joinSegs (s :: rest) ++ [separator]
            = s ++ separator :: (joinSegs rest ++ [separator]) := by
          rw [joinSegs_cons s rest hne]
          simp
        rw [h1, sanitizeLoop_step_mid isAbs f' acc s _ hcs]
        have hrest : cleanSegs rest := fun x hx => hws x (by simp [hx])
        have hflen : (joinSegs rest).length + 2 ≤ f' := by
          rw [joinSegs_cons s rest hne] at hf
          simp only [List.length_append, List.length_cons] at hf
          omega
        rw [ih hrest (acc ++ [s]) f' hflen]
        simp

/-- With `isAbs = true` the scan can never request a restart. -/
theorem sanitizeLoop_abs_ne_none (f : Nat) (rest : Str) (acc : List Str)
    (hf : rest.length + 1 ≤ f) :
    sanitizeLoop true f rest acc ≠ none := by
  induction f generalizing rest acc with
  | zero => omega
  | succ f' ih =>
    simp only [sanitizeLoop]
    cases hdw : rest.dropWhile (fun c => c == separator) with
    | nil => simp
    | cons c r1 =>
      have hlen1 : (c :: r1).length ≤ rest.length := by
        rw [← hdw]
        exact length_dropWhile_le _ rest
      rw [if_neg (by simp : ¬(c :: r1 = ([] : Str)))]
      rw [if_neg (by simp :
        ¬((c :: r1).takeWhile (fun c => !(c == separator)) = dotdot ∧
          acc = [] ∧ true = false))]
      cases hdw2 : (c :: r1).dropWhile (fun c => !(c == separator)) with
      | nil => simp
      | cons d t =>
        rw [if_neg (by simp : ¬(d :: t = ([] : Str)))]
        have hlen2 : t.length + 1 ≤ f' := by
          have h6 := length_dropWhile_le (fun c => !(c == separator)) (c :: r1)
          rw [hdw2] at h6
          simp only [List.length_cons] at h6 hlen1
          omega
        simp only [List.tail_cons]
        exact ih t _ hlen2

/-- Whatever the scan returns has the clean-segments shape. -/
theorem sanitizeLoop_shape (f : Nat) (isAbs : Bool) (rest : Str)
    (acc segs : List Str) (hacc : cleanSegs acc)
    (h : sanitizeLoop isAbs f rest acc = some segs) : SegShape segs := by
  induction f generalizing rest acc segs with
  | zero => simp [sanitizeLoop] at h
  | succ f' ih =>
    simp only [sanitizeLoop] at h
    cases hdw : rest.dropWhile (fun c => c == separator) with
    | nil =>
      rw [hdw] at h
      rw [if_pos rfl] at h
      simp only [Option.some.injEq] at h
      right
      exact ⟨acc, hacc, h.symm⟩
    | cons c r1 =>
      rw [hdw] at h
      have hc : (c == separator) = false := dropWhile_head_not _ rest c r1 hdw
      rw [if_neg (by simp : ¬(c :: r1 = ([] : Str)))] at h
      by_cases hcond : (c :: r1).takeWhile (fun c => !(c == separator)) = dotdot ∧
          acc = [] ∧ isAbs = false
      · rw [if_pos hcond] at h
        simp at h
      · rw [if_neg hcond] at h
        have hclean1 : cleanSegs
            (if (c :: r1).takeWhile (fun c => !(c == separator)) = dotdot
              then acc.dropLast
              else if (c :: r1).takeWhile (fun c => !(c == separator)) = dot
                then acc
                else acc ++ [(c :: r1).takeWhile (fun c => !(c == separator))]) := by
          by_cases h2 : (c :: r1).takeWhile (fun c => !(c == separator)) = dotdot
          · rw [if_pos h2]
            exact cleanSegs_dropLast hacc
          · rw [if_neg h2]
            by_cases h4 : (c :: r1).takeWhile (fun c => !(c == separator)) = dot
            · rw [if_pos h4]
              exact hacc
            · rw [if_neg h4]
              apply cleanSegs_append hacc
              intro x hx
              simp only [List.mem_singleton] at hx
              subst hx
              refine ⟨?_, ?_, h4, h2⟩
              · rw [List.takeWhile_cons]
                simp [hc]
              · intro y hy
                have := List.mem_takeWhile_imp hy
                simpa using this
        cases hdw2 : (c :: r1).dropWhile (fun c => !(c == separator)) with
        | nil =>
          rw [hdw2] at h
          rw [if_pos rfl] at h
          simp only [Option.some.injEq] at h
          left
          rw [← h]
          exact hclean1
        | cons d t =>
          rw [hdw2] at h
          rw [if_neg (by simp : ¬(d :: t = ([] : Str)))] at h
          simp only [List.tail_cons] at h
          exact ih t _ segs hclean1 h

/-- A non-empty clean segment list joins to a buffer ending in a
non-separator character. -/
theorem joinSegs_clean_ends_nonsep (ws : List Str)
    (hws : cleanSegs ws) (h : ws ≠ []) :
    ∃ q c, joinSegs ws = q ++ [c] ∧ (c == separator) = false := by
  induction ws with
  | nil => exact absurd rfl h
  | cons s rest ih =>
    cases hr : rest with
    | nil =>
      obtain ⟨hne, hnosep, -, -⟩ := hws s (by simp)
      refine ⟨s.dropLast, s.getLast hne, ?_, ?_⟩
      · subst hr
        simp [joinSegs, List.dropLast_append_getLast hne]
      · exact hnosep _ (List.getLast_mem hne)
    | cons t ts =>
      rw [← hr]
      have hne : rest ≠ [] := by simp [hr]
      obtain ⟨q, c, hq, hc⟩ := ih (fun x hx => hws x (by simp [hx])) hne
      refine ⟨s ++ separator :: q, c, ?_, hc⟩
      rw [joinSegs_cons s rest hne, hq]
      simp

/-- A non-empty clean segment list joins to a buffer starting with a
non-separator character. -/
theorem joinSegs_clean_head (ws : List Str) (hws : cleanSegs ws)
    (h : ws ≠ []) :
    ∃ x rest, joinSegs ws = x :: rest ∧ (x == separator) = false := by
  cases ws with
  | nil => exact absurd rfl h
  | cons s ss =>
    obtain ⟨hne, hnosep, -, -⟩ := hws s (by simp)
    obtain ⟨x, s', rfl⟩ : ∃ x s', s = x :: s' := by
      cases s with
      | nil => exact absurd rfl hne
      | cons x s' => exact ⟨x, s', rfl⟩
    cases hss : ss with
    | nil =>
      exact ⟨x, s', by simp [joinSegs], hnosep x (by simp)⟩
    | cons t ts =>
      rw [← hss]
      have hne2 : ss ≠ [] := by simp [hss]
      rw [joinSegs_cons (x :: s') ss hne2]
      exact ⟨x, s' ++ separator :: joinSegs ss, by simp, hnosep x (by simp)⟩

/-- Splitting off the head of `trim`: trimming either empties the buffer
or keeps the head character. -/
theorem trim_cons (c : Char) (l : Str) :
    trim (c :: l) = [] ∨ trim (c :: l) = c :: trim l := by
  unfold trim
  rw [List.reverse_cons, List.dropWhile_append]
  by_cases h : (l.reverse.dropWhile (fun c => c == separator)).isEmpty
  · by_cases hc : (c == separator) = true
    · left
      simp [h, List.dropWhile_cons, hc]
    · right
      have hl : l.reverse.dropWhile (fun c => c == separator) = [] :=
        List.isEmpty_iff.mp h
      simp [h, List.dropWhile_cons, hc, hl]
  · right
    simp [h]

theorem trim_cwd (wd : Str) : trim (cwd wd) = trim wd := by
  unfold cwd directory
  rw [trim_append_sep, trim_idem]

/-- The canonical working directory `"/w1/.../wk"` turned into a
directory by `cwd()` is again a canonical absolute buffer, with the
trailing directory marker as its last segment. -/
theorem cwd_canonical (ws : List Str) (hws : cleanSegs ws) :
    cwd (separator :: joinSegs ws) = separator :: joinSegs (ws ++ [[]]) := by
  unfold cwd directory
  cases hw : ws with
  | nil =>
    subst hw
    simp [trim, joinSegs, List.dropWhile]
  | cons s rest =>
    rw [← hw]
    have hne : ws ≠ [] := by simp [hw]
    obtain ⟨q, c, hq, hc⟩ := joinSegs_clean_ends_nonsep ws hws hne
    have hcc : ¬ c = separator := by
      intro hcc
      subst hcc
      simp at hc
    have htrim : trim (separator :: joinSegs ws) = separator :: joinSegs ws := by
      rw [hq]
      have := trim_of_last_ne_sep (separator :: q) c hcc
      simpa using this
    rw [htrim, joinSegs_snoc_nil ws hne]
    simp

/-- The absolutized copy of any path is absolute once the working
directory is. -/
theorem absolute_is_absolute (wd p : Str) (hwd : is_absolute wd = true) :
    is_absolute (absolute wd p) = true := by
  unfold absolute
  by_cases hp : is_absolute p = true
  · simp [hp]
  · have hp' : is_absolute p = false := by simpa using hp
    rw [hp']
    simp only [Bool.false_eq_true, if_false]
    unfold join append
    rw [trim_cwd]
    obtain ⟨w', rfl⟩ : ∃ w', wd = separator :: w' := by
      cases wd with
      | nil => simp [is_absolute] at hwd
      | cons c w' =>
        have : c = separator := by simpa [is_absolute] using hwd
        exact ⟨w', by rw [this]⟩
    rcases trim_cons separator w' with h | h
    · rw [h]
      simp [is_absolute]
    · rw [h]
      simp [is_absolute]

/-- `sanitizeCore` on an absolute buffer: never restarts, and re-seeds
from the single separator. -/
theorem sanitizeCore_abs (wd q : Str) (hq : is_absolute q = true) :
    ∃ segs, SegShape segs ∧
      sanitizeCore wd q = some (separator :: joinSegs segs) := by
  obtain ⟨c, q', rfl⟩ : ∃ c q', q = c :: q' := by
    cases q with
    | nil => simp [is_absolute] at hq
    | cons c q' => exact ⟨c, q', rfl⟩
  have hc : c = separator := by simpa [is_absolute] using hq
  subst hc
  cases hloop : sanitizeLoop (is_absolute (separator :: q'))
      ((separator :: q').length + 1) (separator :: q') [] with
  | none =>
    exfalso
    rw [show is_absolute (separator :: q') = true from rfl] at hloop
    exact sanitizeLoop_abs_ne_none _ _ _ (by simp) hloop
  | some segs =>
    refine ⟨segs, sanitizeLoop_shape _ _ _ _ _ cleanSegs_nil hloop, ?_⟩
    unfold sanitizeCore
    rw [hloop]
    simp [sanitizeSeed, startsWithDot, separator, is_absolute]

/-- An absolute buffer in canonical joined form is a fixed point of one
sanitize pass. -/
theorem sanitizeCore_fix_abs (wd : Str) (segs : List Str)
    (hs : SegShape segs) :
    sanitizeCore wd (separator :: joinSegs segs)
      = some (separator :: joinSegs segs) := by
  have key : sanitizeLoop (is_absolute (separator :: joinSegs segs))
      ((separator :: joinSegs segs).length + 1) (separator :: joinSegs segs) []
      = some segs ∨
      (joinSegs segs = [] ∧
        sanitizeLoop (is_absolute (separator :: joinSegs segs))
          ((separator :: joinSegs segs).length + 1)
          (separator :: joinSegs segs) [] = some [[]]) := by
    have hfuel : (separator :: joinSegs segs).length + 1
        = ((joinSegs segs).length + 1) + 1 := by simp
    rcases hs with hclean | ⟨ws, hws, rfl⟩
    · cases hsegs : segs with
      | nil =>
        right
        subst hsegs
        rw [hfuel]
        rw [show joinSegs ([] : List Str) = [] from rfl]
        rw [sanitizeLoop_skip_sep, sanitizeLoop_nil]
        simp
      | cons s ss =>
        left
        rw [← hsegs, hfuel, sanitizeLoop_skip_sep]
        have := sanitizeLoop_joinSegs segs hclean (by simp [hsegs])
          (is_absolute (separator :: joinSegs segs)) []
          ((joinSegs segs).length + 1 + 1) (by omega)
        simpa using this
    · cases hws2 : ws with
      | nil =>
        right
        subst hws2
        simp only [List.nil_append] at hfuel ⊢
        rw [hfuel]
        rw [show joinSegs ([[]] : List Str) = [] from rfl]
        rw [sanitizeLoop_skip_sep, sanitizeLoop_nil]
        simp
      | cons w ws' =>
        left
        rw [← hws2, hfuel, sanitizeLoop_skip_sep]
        rw [joinSegs_snoc_nil ws (by simp [hws2])]
        have hb : (joinSegs ws).length + 2
            ≤ (joinSegs ws ++ [separator]).length + 1 + 1 := by
          simp
        have := sanitizeLoop_joinSegs_dir ws hws
          (is_absolute (separator :: (joinSegs ws ++ [separator]))) []
          ((joinSegs ws ++ [separator]).length + 1 + 1) hb
        simpa using this
  have hseed : sanitizeSeed wd (separator :: joinSegs segs) = [separator] := by
    simp [sanitizeSeed, startsWithDot, separator, is_absolute]
  rcases key with hloop | ⟨hjs, hloop⟩
  · unfold sanitizeCore
    rw [hloop, hseed]
    rfl
  · unfold sanitizeCore
    rw [hloop, hseed, hjs]
    rfl

/-- A relative buffer in canonical joined form that does not begin with
`'.'` is a fixed point of one sanitize pass. -/
theorem sanitizeCore_fix_rel (wd : Str) (segs : List Str)
    (hs : SegShape segs)
    (hdot2 : startsWithDot (joinSegs segs) = false) :
    sanitizeCore wd (joinSegs segs) = some (joinSegs segs) := by
  have hnilcase : ∀ (segs2 : List Str), joinSegs segs2 = [] →
      sanitizeCore wd (joinSegs segs2) = some (joinSegs segs2) := by
    intro segs2 hjs
    rw [hjs]
    unfold sanitizeCore
    rw [show (([] : Str).length + 1) = 0 + 1 from rfl, sanitizeLoop_nil]
    simp [sanitizeSeed, startsWithDot, is_absolute, joinSegs]
  rcases hs with hclean | ⟨zs, hzs, rfl⟩
  · cases hsegs : segs with
    | nil => exact hsegs ▸ hnilcase [] rfl
    | cons s ss =>
      subst hsegs
      obtain ⟨x, rest, hx, hxs⟩ := joinSegs_clean_head (s :: ss) hclean (by simp)
      have habs : is_absolute (joinSegs (s :: ss)) = false := by
        rw [hx]
        simp [is_absolute, hxs]
      unfold sanitizeCore
      rw [habs]
      rw [sanitizeLoop_joinSegs (s :: ss) hclean (by simp) false [] _ (by omega)]
      simp [sanitizeSeed, hdot2, habs]
  · cases hzs2 : zs with
    | nil =>
      subst hzs2
      exact hnilcase [[]] rfl
    | cons z zs' =>
      subst hzs2
      have hne : (z :: zs') ≠ ([] : List Str) := by simp
      obtain ⟨x, rest, hx, hxs⟩ := joinSegs_clean_head (z :: zs') hzs hne
      have hjs : joinSegs ((z :: zs') ++ [[]])
          = joinSegs (z :: zs') ++ [separator] := joinSegs_snoc_nil _ hne
      have habs : is_absolute (joinSegs ((z :: zs') ++ [[]])) = false := by
        rw [hjs, hx]
        simp [is_absolute, hxs]
      unfold sanitizeCore
      rw [habs]
      rw [show (joinSegs ((z :: zs') ++ [[]])).length + 1
          = (joinSegs (z :: zs')).length + 2 by rw [hjs]; simp]
      rw [hjs, sanitizeLoop_joinSegs_dir (z :: zs') hzs false []
        ((joinSegs (z :: zs')).length + 2) (by omega)]
      rw [← hjs]
      simp only [List.cons_append] at hdot2 habs ⊢
      simp [sanitizeSeed, hdot2, habs]

/-- `sanitize` fixes canonical absolute buffers. -/
theorem sanitize_fix_abs (wd : Str) (segs : List Str) (hs : SegShape segs) :
    sanitize wd (separator :: joinSegs segs) = separator :: joinSegs segs := by
  unfold sanitize
  rw [sanitizeCore_fix_abs wd segs hs]

/-- `sanitize` fixes canonical relative buffers not starting with `'.'`. -/
theorem sanitize_fix_rel (wd : Str) (segs : List Str) (hs : SegShape segs)
    (hdot2 : startsWithDot (joinSegs segs) = false) :
    sanitize wd (joinSegs segs) = joinSegs segs := by
  unfold sanitize
  rw [sanitizeCore_fix_rel wd segs hs hdot2]

/-! ## Claim C1 (amended): idempotence of sanitize -/

/-- C1 (amended): given a canonical absolute working directory
`"/w1/.../wk"`, `sanitize` is idempotent on every input whose sanitized
form does not begin with `'.'` — in particular on all absolute inputs,
on inputs that themselves begin with `'.'` (they re-seed to an absolute
buffer), and on inputs that restart through `absolute()`.  The only
exception, forced by the counterexample, is a relative input whose
sanitized form begins with `'.'`: the second pass then re-seeds the
buffer from the working directory. -/
theorem sanitize_idem_amended (wd p : Str) (ws : List Str)
    (hws : cleanSegs ws) (hwd : wd = separator :: joinSegs ws)
    (h : startsWithDot (sanitize wd p) = false) :
    sanitize wd (sanitize wd p) = sanitize wd p := by
  cases hcore : sanitizeCore wd p with
  | some r =>
    have hsan : sanitize wd p = r := by
      unfold sanitize
      rw [hcore]
    rw [hsan] at h ⊢
    unfold sanitizeCore at hcore
    cases hloop : sanitizeLoop (is_absolute p) (p.length + 1) p [] with
    | none =>
      rw [hloop] at hcore
      cases hcore
    | some segs =>
      rw [hloop] at hcore
      simp only [Option.some.injEq] at hcore
      have hshape : SegShape segs :=
        sanitizeLoop_shape _ _ _ _ _ cleanSegs_nil hloop
      by_cases hdotp : startsWithDot p = true
      · have hr : r = cwd wd ++ joinSegs segs := by
          rw [← hcore]
          simp [sanitizeSeed, hdotp]
        have hcwd : cwd wd = separator :: joinSegs (ws ++ [[]]) := by
          rw [hwd]
          exact cwd_canonical ws hws
        by_cases hsegs : segs = []
        · have hr2 : r = separator :: joinSegs (ws ++ [[]]) := by
            rw [hr, hcwd, hsegs]
            simp [joinSegs]
          rw [hr2]
          exact sanitize_fix_abs _ (ws ++ [[]]) (Or.inr ⟨ws, hws, rfl⟩)
        · have hjd := joinSegs_dir_append ws segs hsegs
          have hr2 : r = separator :: joinSegs (ws ++ segs) := by
            rw [hr, hcwd]
            simp [hjd]
          rw [hr2]
          apply sanitize_fix_abs
          rcases hshape with hcl | ⟨zs, hzs, rfl⟩
          · exact Or.inl (cleanSegs_append hws hcl)
          · exact Or.inr ⟨ws ++ zs, cleanSegs_append hws hzs, by simp⟩
      · have hdotp' : startsWithDot p = false := by simpa using hdotp
        by_cases habsp : is_absolute p = true
        · have hr : r = separator :: joinSegs segs := by
            rw [← hcore]
            simp [sanitizeSeed, hdotp', habsp]
          rw [hr]
          exact sanitize_fix_abs _ segs hshape
        · have habsp' : is_absolute p = false := by simpa using habsp
          have hr : r = joinSegs segs := by
            rw [← hcore]
            simp [sanitizeSeed, hdotp', habsp']
          rw [hr] at h ⊢
          exact sanitize_fix_rel _ segs hshape h
  | none =>
    have habsp : is_absolute p = false := by
      by_contra hab
      have hab' : is_absolute p = true := by simpa using hab
      unfold sanitizeCore at hcore
      cases hloop : sanitizeLoop (is_absolute p) (p.length + 1) p [] with
      | some segs =>
        rw [hloop] at hcore
        cases hcore
      | none =>
        rw [hab'] at hloop
        exact sanitizeLoop_abs_ne_none _ _ _ (by omega) hloop
    have hwdabs : is_absolute wd = true := by
      rw [hwd]
      simp [is_absolute]
    have habs' := absolute_is_absolute wd p hwdabs
    obtain ⟨segs, hshape, hcore2⟩ := sanitizeCore_abs wd (absolute wd p) habs'
    have hsan : sanitize wd p = separator :: joinSegs segs := by
      unfold sanitize
      rw [hcore, hcore2]
    rw [hsan]
    exact sanitize_fix_abs _ segs hshape

/-- C1 amended witness: working directory `"/home"` (segments
`["home"]`), input `"a/b"` whose sanitized form `"a/b"` does not begin
with `'.'`; sanitizing twice equals sanitizing once. -/
theorem sanitize_idem_amended_witness :
    sanitize (str "/home") (sanitize (str "/home") (str "a/b"))
      = sanitize (str "/home") (str "a/b") :=
  sanitize_idem_amended (str "/home") (str "a/b") [str "home"]
    (by
      intro s hs
      simp only [List.mem_singleton] at hs
      subst hs
      refine ⟨by decide, ?_, by decide, by decide⟩
      decide)
    (by decide) (by decide)

/-! ## Claim C2: the '..' restart on relative paths -/

/-- C2: when the scan of a relative path meets a `".."` segment with no
accumulated segments to pop (its leading `".."` segments outnumber the
named segments before them), `sanitize` restarts as
`absolute().sanitize()`: the result equals sanitizing the absolutized
copy and — for an absolute working directory — is itself absolute, not a
relative path retaining the `".."` segments. -/
theorem sanitize_relative_restart (wd p : Str)
    (hwd : is_absolute wd = true) (_hp : is_absolute p = false)
    (hrestart : sanitizeCore wd p = none) :
    sanitize wd p = sanitize wd (absolute wd p) ∧
    is_absolute (sanitize wd p) = true := by
  have habs' := absolute_is_absolute wd p hwd
  obtain ⟨segs, hshape, hcore2⟩ := sanitizeCore_abs wd (absolute wd p) habs'
  have hsan : sanitize wd p = separator :: joinSegs segs := by
    unfold sanitize
    rw [hrestart, hcore2]
  have hsan2 : sanitize wd (absolute wd p) = separator :: joinSegs segs := by
    unfold sanitize
    rw [hcore2]
  refine ⟨by rw [hsan, hsan2], ?_⟩
  rw [hsan]
  simp [is_absolute]

/-- C2 witness: `wd = "/home"`, `p = "../x"`: the first scanned segment
is `".."` with an empty accumulator, triggering the restart; the result
equals `sanitize` of the absolutized copy and is absolute
(`"/x"`, not a relative buffer keeping `".."`). -/
theorem sanitize_relative_restart_witness :
    sanitize (str "/home") (str "../x")
      = sanitize (str "/home") (absolute (str "/home") (str "../x")) ∧
    is_absolute (sanitize (str "/home") (str "../x")) = true :=
  sanitize_relative_restart (str "/home") (str "../x")
    (by decide) (by decide) (by decide)

/-! ## Claim C7: parent / up -/

/-- `Path::up`: `absolute().sanitize().trim()`, then
`pos = path.rfind(separator); if (pos != npos) path.erase(pos)` —
erasing from the last separator is `take` of its index — and finally
`directory()`. -/
def up (wd p : Str) : Str :=
  let q := trim (sanitize wd (absolute wd p))
  let q2 :=
    match lastIdxOfSep q with
    | some i => q.take i
    | none => q
  directory q2

/-- `Path::parent`: `up` applied to a copy, leaving the receiver
untouched. -/
def parent (wd p : Str) : Str := up wd p

theorem trailing_slash_directory (x : Str)
    (hlen : (directory x).length < USIZE) :
    trailing_slash (directory x) = true := by
  unfold directory trailing_slash rfind at *
  rw [lastIdxOfSep_append_sep]
  have hlen2 : (trim x ++ [separator]).length = (trim x).length + 1 := by
    simp
  rw [hlen2] at hlen ⊢
  have hmod : ((trim x).length + 1 + (USIZE - 1)) % USIZE = (trim x).length := by
    have h1 : 1 ≤ USIZE := by decide
    have h2 : (trim x).length + 1 + (USIZE - 1) = (trim x).length + USIZE := by
      omega
    rw [h2, Nat.add_mod_right]
    exact Nat.mod_eq_of_lt (by omega)
  rw [hmod]
  simp

theorem parent_abs_canonical (wd : Str) (segs : List Str)
    (hs : SegShape segs) :
    parent wd (separator :: joinSegs segs)
      = directory
          (match lastIdxOfSep (trim (separator :: joinSegs segs)) with
            | some i => (trim (separator :: joinSegs segs)).take i
            | none => trim (separator :: joinSegs segs)) := by
  simp only [parent, up]
  have h1 : absolute wd (separator :: joinSegs segs)
      = separator :: joinSegs segs := by
    unfold absolute
    have habs : is_absolute (separator :: joinSegs segs) = true := rfl
    simp [habs]
  rw [h1, sanitize_fix_abs wd segs hs]

/-- C7: the filesystem root is its own parent — `parent("/") = "/"`
(trimming `"/"` empties the buffer, `rfind` finds nothing, and
`directory()` re-resolves it to `"/"`); `parent("/hello/how/are/you")`
is `"/hello/how/are/"`; and in general `parent` ends with a trailing
separator (for buffers of realistic `size_t` length). -/
theorem parent_spec :
    (∀ wd, parent wd (str "/") = str "/") ∧
    (∀ wd, parent wd (str "/hello/how/are/you") = str "/hello/how/are/") ∧
    (∀ wd p, (parent wd p).length < USIZE →
      trailing_slash (parent wd p) = true) := by
  refine ⟨fun wd => ?_, fun wd => ?_, fun wd p hlen => ?_⟩
  · have e1 : str "/" = separator :: joinSegs [[]] := by decide
    rw [e1, parent_abs_canonical wd [[]] (Or.inr ⟨[], cleanSegs_nil, rfl⟩)]
    decide
  · have e2 : str "/hello/how/are/you"
        = separator :: joinSegs [str "hello", str "how", str "are", str "you"] := by
      decide
    have hclean : cleanSegs [str "hello", str "how", str "are", str "you"] := by
      intro s hs
      fin_cases hs <;> exact ⟨by decide, by decide, by decide, by decide⟩
    rw [e2, parent_abs_canonical wd _ (Or.inl hclean)]
    decide
  · exact trailing_slash_directory _ hlen

/-- C7 witness: the general trailing-separator clause applied at
`wd = "/home"`, `p = "/a/b"`, whose parent `"/a/"` is shorter than
`2 ^ 64`. -/
theorem parent_spec_witness :
    trailing_slash (parent (str "/home") (str "/a/b")) = true :=
  parent_spec.2.2 (str "/home") (str "/a/b") (by decide)

/-! ## Claim C8: extension (modelled from the spec) -/

/-- The final path component: the text after the last separator (the
whole buffer when it has none). -/
def finalComponent (p : Str) : Str :=
  (p.reverse.takeWhile (fun c => !(c == separator))).reverse

/-- Modelled from the spec: `extension()` is absent from src/path.hpp
(only the test file calls it).  Spec §4.4: "the text after the last `.`
in the **final path component only** (never crossing a separator); if
the final component contains no `.`, or the `.` belongs to an earlier
(directory) component, returns empty text." -/
def extension (p : Str) : Str :=
  let comp := finalComponent p
  if '.' ∈ comp then (comp.reverse.takeWhile (fun c => !(c == '.'))).reverse
  else []

theorem takeWhile_append_cons_of_neg (p : Char → Bool) (xs ys : Str)
    (y : Char) (hy : p y = false) :
    (xs ++ y :: ys).takeWhile p = xs.takeWhile p := by
  induction xs with
  | nil => simp [List.takeWhile_cons, hy]
  | cons x rest ih =>
    by_cases hx : p x = true
    · simp [List.takeWhile_cons, hx, ih]
    · simp [List.takeWhile_cons, hx]

theorem finalComponent_append (a b : Str) :
    finalComponent (a ++ separator :: b) = finalComponent b := by
  unfold finalComponent
  rw [show (a ++ separator :: b).reverse
      = b.reverse ++ separator :: a.reverse by simp]
  rw [takeWhile_append_cons_of_neg _ _ _ separator (by simp)]

/-- C8: `extension` takes the text after the last `.` of the final path
component only — `extension("foo/bar.baz.out") = "out"`, while a `.`
confined to a directory component yields empty
(`extension("foo/bar.baz/out") = ""`); prepending any directory prefix
never changes the extension (it never crosses a separator). -/
theorem extension_spec :
    extension (str "foo/bar.baz.out") = str "out" ∧
    extension (str "foo/bar.baz/out") = [] ∧
    ∀ a b : Str, extension (a ++ separator :: b) = extension b := by
  refine ⟨by decide, by decide, fun a b => ?_⟩
  unfold extension
  rw [finalComponent_append]

/-! ## Filesystem model for the tree operations

The filesystem access layer (`open`, `mkdir`, `remove`, `opendir`,
`stat`) is outside the repository; it is modelled from the spec (§1, §6)
as a table of absolute, canonical entry keys.  A path argument of a
system call is resolved against the process working directory — modelled
as absolutization plus lexical normalization, with trailing separators
ignored; the root resolves to the empty key and always exists as a
directory. -/

/-- Kind and metadata of a filesystem entry.  `locked` models a file the
process may not remove (`EACCES`/`EPERM` on `remove`). -/
inductive EntryKind
  | dir (mode : Nat)
  | file (mode : Nat) (locked : Bool)
deriving DecidableEq

/-- The modelled filesystem: the `getcwd` buffer and the entry table
(keys are absolute canonical paths without trailing separator; the root
is implicit). -/
structure FS where
  wd : Str
  entries : List (Str × EntryKind)
deriving DecidableEq

/-- Resolution of a path by the OS: absolutize against the working
directory, normalize lexically, ignore trailing separators. -/
def key (wd q : Str) : Str :=
  trim (sanitize wd (absolute wd q))

/-- Key of the containing directory: cut at the last separator (the
root, key `[]`, is its own parent). -/
def parentKey (k : Str) : Str :=
  match lastIdxOfSep k with
  | some i => k.take i
  | none => []

/-- First entry with the given key, if any. -/
def findEntry (k : Str) : List (Str × EntryKind) → Option EntryKind
  | [] => none
  | e :: rest => if e.1 = k then some e.2 else findEntry k rest

/-- Look an entry up by key; the root always exists as a directory. -/
def lookupFS (fs : FS) (k : Str) : Option EntryKind :=
  if k = [] then some (.dir 493) else findEntry k fs.entries

/-- `stat`-based directory test (`Path::is_directory`). -/
def is_directoryFS (fs : FS) (p : Str) : Bool :=
  match lookupFS fs (key fs.wd p) with
  | some (.dir _) => true
  | _ => false

/-- `stat`-based regular-file test (`Path::is_file`). -/
def is_fileFS (fs : FS) (p : Str) : Bool :=
  match lookupFS fs (key fs.wd p) with
  | some (.file _ _) => true
  | _ => false

/-- Result of `mkdir(2)` in the model. -/
inductive MkdirRes
  | ok | eexist | enoent | eother
deriving DecidableEq

/-- `mkdir(path, mode)`: fails with `EEXIST` if the target exists, with
`ENOENT` if the parent is missing, with another error if the parent is
not a directory; otherwise creates the directory. -/
def mkdirFS (fs : FS) (p : Str) (mode : Nat) : FS × MkdirRes :=
  let k := key fs.wd p
  match lookupFS fs k with
  | some _ => (fs, .eexist)
  | none =>
    match lookupFS fs (parentKey k) with
    | some (.dir _) => (⟨fs.wd, fs.entries ++ [(k, .dir mode)]⟩, .ok)
    | some _ => (fs, .eother)
    | none => (fs, .enoent)

/-- `open(path, O_RDONLY | O_CREAT, mode)`: succeeds on an existing
file; fails with `EISDIR` on an existing directory (Linux semantics for
`O_CREAT` on a directory); creates an empty file when the parent
directory exists; fails with `ENOENT` otherwise. -/
def openCreatFS (fs : FS) (p : Str) (mode : Nat) : FS × Bool :=
  let k := key fs.wd p
  match lookupFS fs k with
  | some (.file _ _) => (fs, true)
  | some (.dir _) => (fs, false)
  | none =>
    match lookupFS fs (parentKey k) with
    | some (.dir _) => (⟨fs.wd, fs.entries ++ [(k, .file mode false)]⟩, true)
    | _ => (fs, false)

/-- Does the directory key have any child entry? -/
def hasChildFS (fs : FS) (k : Str) : Bool :=
  fs.entries.any (fun e => parentKey e.1 == k)

/-- `remove(path)`: deletes a file (unless locked) or an empty
directory; fails on the root, on missing entries, on locked files and
on non-empty directories. -/
def removeFS (fs : FS) (p : Str) : FS × Bool :=
  let k := key fs.wd p
  match lookupFS fs k with
  | none => (fs, false)
  | some (.file _ locked) =>
    if locked then (fs, false)
    else (⟨fs.wd, fs.entries.filter (fun e => !(e.1 == k))⟩, true)
  | some (.dir _) =>
    if k = [] then (fs, false)
    else if hasChildFS fs k then (fs, false)
    else (⟨fs.wd, fs.entries.filter (fun e => !(e.1 == k))⟩, true)

/-- Names of the children of a directory key, in table order. -/
def childNames (fs : FS) (k : Str) : List Str :=
  fs.entries.filterMap
    (fun e => if parentKey e.1 = k then some (finalComponent e.1) else none)

/-- `opendir`/`readdir`: `none` when the path is not an existing
directory; otherwise the self and parent pseudo-entries followed by the
children's names. -/
def opendirFS (fs : FS) (p : Str) : Option (List Str) :=
  match lookupFS fs (key fs.wd p) with
  | some (.dir _) => some (dot :: dotdot :: childNames fs (key fs.wd p))
  | _ => none

/-! ## `Path::listdir` (C6) -/

/-- The `readdir` loop of `Path::listdir`: skip `".."`, skip `"."`, and
push `Path(base).relative(name)` for every other entry. -/
def listdirLoop (base : Str) : List Str → List Str
  | [] => []
  | n :: rest =>
    if n = dotdot then listdirLoop base rest
    else if n = dot then listdirLoop base rest
    else relative base n :: listdirLoop base rest

/-- `Path::listdir`: absolutize a copy of `p`, open the directory (empty
result if that fails), and collect one path per surviving entry. -/
def listdir (fs : FS) (p : Str) : List Str :=
  let base := absolute fs.wd p
  match opendirFS fs base with
  | none => []
  | some names => listdirLoop base names

theorem listdirLoop_eq (base : Str) (names : List Str) :
    listdirLoop base names
      = (names.filter (fun n => !(n == dotdot) && !(n == dot))).map
          (fun n => relative base n) := by
  induction names with
  | nil => rfl
  | cons n rest ih =>
    by_cases h1 : n = dotdot
    · simp [listdirLoop, h1, List.filter_cons, ih]
    · by_cases h2 : n = dot
      · simp [listdirLoop, h1, h2, List.filter_cons, ih]
      · simp [listdirLoop, h1, h2, List.filter_cons, ih]

/-- C6: `listdir` absolutizes a copy of `p`; if the directory cannot be
opened it returns the empty sequence; otherwise it returns exactly one
path per enumerated entry other than the `"."` and `".."`
pseudo-entries, each formed by `relative(entryName)` on a copy of the
absolutized base. -/
theorem listdir_spec (fs : FS) (p : Str) :
    (opendirFS fs (absolute fs.wd p) = none → listdir fs p = []) ∧
    (∀ names, opendirFS fs (absolute fs.wd p) = some names →
      listdir fs p
        = (names.filter (fun n => !(n == dotdot) && !(n == dot))).map
            (fun n => relative (absolute fs.wd p) n)) := by
  constructor
  · intro h
    simp only [listdir]
    rw [h]
  · intro names h
    simp only [listdir]
    rw [h]
    exact listdirLoop_eq _ names

/-- A concrete filesystem: working directory `/home`, containing the
directory `/home/d` with a single file `a` in it. -/
def fsListdir : FS :=
  ⟨str "/home",
    [(str "/home", .dir 493), (str "/home/d", .dir 493),
     (str "/home/d/a", .file 420 false)]⟩

/-- C6 witness: listing `/home/d` (named relatively as `"d"`) yields the
single path `/home/d/a`; the `"."` and `".."` entries produced by the
directory stream are excluded. -/
theorem listdir_spec_witness :
    listdir fsListdir (str "d") = [str "/home/d/a"] := by
  have h := (listdir_spec fsListdir (str "d")).2
    [str ".", str "..", str "a"] (by decide)
  rw [h]
  decide

/-! ## `Path::touch` and `Path::makedirs` (C3) -/

/-- `Path::makedirs` (fuel on the parent recursion, which shortens the
path every step): absolutize; `mkdir`; on `EEXIST` return
`is_directory`; on `ENOENT` recursively make the parent (result
ignored) and retry `mkdir` once; any other error fails. -/
def makedirsF : Nat → FS → Str → Nat → FS × Bool
  | 0, fs, _, _ => (fs, false)
  | fuel + 1, fs, p, mode =>
    let ab := absolute fs.wd p
    let r := mkdirFS fs ab mode
    match r.2 with
    | .ok => (r.1, true)
    | .eexist => (r.1, is_directoryFS r.1 ab)
    | .enoent =>
      let r2 := makedirsF fuel r.1 (parent r.1.wd ab) mode
      let r3 := mkdirFS r2.1 ab mode
      match r3.2 with
      | .ok => (r3.1, true)
      | _ => (r3.1, false)
    | .eother => (r.1, false)

/-- `Path::touch(p, mode)`: `open(p, O_RDONLY | O_CREAT, mode)`; if that
fails, `makedirs(p)` — the C++ passes the full path `p`, not
`p.parent()`, and lets `mode` default to `0777` rather than forwarding
the caller's `mode` — then retries the `open` once.  `close` always
succeeds in the model. -/
def touch (fs : FS) (p : Str) (mode : Nat) : FS × Bool :=
  let r1 := openCreatFS fs p mode
  if r1.2 then (r1.1, true)
  else
    let r2 := makedirsF ((absolute r1.1.wd p).length + 1) r1.1 p 511
    let r3 := openCreatFS r2.1 p mode
    (r3.1, r3.2)

/-- A concrete filesystem for the `touch` failing input: working
directory `/home`, no `a` directory anywhere. -/
def fsTouch : FS := ⟨str "/home", [(str "/home", .dir 493)]⟩

/-- C3 (the code at the failing input): `touch("a/b", 0644)` in `/home`
with no directory `a`.  The first `open` fails; the code then runs
`makedirs("a/b")` — the full path, with default mode `0777` — creating a
*directory* at `/home/a/b`; the retried `open` hits `EISDIR` and `touch`
returns `false`, leaving a directory where an empty file was asked
for.  The claim (and the spec) instead prescribe
`makedirs(parent(p), mode)` followed by a successful file creation. -/
theorem touch_failing_input :
    (touch fsTouch (str "a/b") 420).2 = false ∧
    lookupFS (touch fsTouch (str "a/b") 420).1 (str "/home/a/b")
      = some (.dir 511) ∧
    lookupFS fsTouch (str "/home/a/b") = none := by
  decide

/-! ## `Path::rmdirs` (C4) -/

/-- One iteration of the child loop of `Path::rmdirs`, mirroring

```
if (it->is_directory() && !rmdirs(*it) && !ignore_errors)
    cout << "Failed rmdirs " ...
else if (it->is_file() && remove(...) != 0 && !ignore_errors)
    cout << "Failed remove " ...
```

with C++ short-circuit evaluation: the recursive `rmdirs(*it)` runs
whenever `it` is a directory (note the *default* `ignore_errors =
false` of that call); the `else if` runs whenever the first condition
is false overall, and `remove` runs whenever `it` is then a file.  The
log models the `cout` reports. -/
def rmChild (recur : FS → Str → Bool → FS × Bool × List Str)
    (ignore : Bool) (st : FS × List Str) (it : Str) : FS × List Str :=
  let fs := st.1
  let log := st.2
  if is_directoryFS fs it then
    let r := recur fs it false
    if !r.2.1 && !ignore then
      (r.1, log ++ r.2.2 ++ [str "Failed rmdirs " ++ it])
    else
      if is_fileFS r.1 it then
        let r2 := removeFS r.1 it
        if !r2.2 && !ignore then
          (r2.1, log ++ r.2.2 ++ [str "Failed remove " ++ it])
        else (r2.1, log ++ r.2.2)
      else (r.1, log ++ r.2.2)
  else
    if is_fileFS fs it then
      let r2 := removeFS fs it
      if !r2.2 && !ignore then
        (r2.1, log ++ [str "Failed remove " ++ it])
      else (r2.1, log)
    else (fs, log)

/-- `Path::rmdirs` (fuel on the tree recursion): fail immediately unless
`p` is a directory; walk the `listdir(p)` children — recursing into
child directories, removing child files, reporting failures — and
finally `remove(p)`; the returned flag reflects only that final
removal. -/
def rmdirsF : Nat → FS → Str → Bool → FS × Bool × List Str
  | 0, fs, _, _ => (fs, false, [])
  | fuel + 1, fs, p, ignore =>
    if !(is_directoryFS fs p) then (fs, false, [])
    else
      let st := (listdir fs p).foldl (rmChild (rmdirsF fuel) ignore) (fs, [])
      let r := removeFS st.1 p
      (r.1, r.2, st.2)

/-- A concrete filesystem for the rmdirs counterexample: `/home/d`
contains a locked file `f1` (enumerated first) and a removable file
`f2`. -/
def fsRm : FS :=
  ⟨str "/home",
    [(str "/home", .dir 493), (str "/home/d", .dir 493),
     (str "/home/d/f1", .file 420 true), (str "/home/d/f2", .file 420 false)]⟩

/-- C4 (counterexample): removing `/home/d` with `ignoreErrors = false`
meets a failure on the first child (`f1` cannot be removed) — yet the
operation is *not* aborted: the failure is merely reported, traversal
continues, and the second child `f2` is removed; the final removal of
`d` then fails because `f1` is still inside.  Under the claim, the
child failure with `ignoreErrors = false` would have aborted the whole
operation before `f2` was touched. -/
theorem rmdirs_abort_counterexample :
    (rmdirsF 3 fsRm (str "d") false).2.1 = false ∧
    lookupFS (rmdirsF 3 fsRm (str "d") false).1 (str "/home/d/f2") = none ∧
    lookupFS (rmdirsF 3 fsRm (str "d") false).1 (str "/home/d/f1")
      = some (.file 420 true) ∧
    (rmdirsF 3 fsRm (str "d") false).2.2
      = [str "Failed remove " ++ str "/home/d/f1"] := by
  decide

/-! The amended C4 statement: `ignore_errors` influences only the
reports; the filesystem effect and the returned flag are independent of
it.  The proof tracks that tree removal only ever erases whole key
classes from the entry table. -/

/-- The mutations of tree removal: working directory unchanged, entry
table filtered by a key-based predicate. -/
def KeepShape (fs fs' : FS) : Prop :=
  fs'.wd = fs.wd ∧
  ∃ keep : Str → Bool, fs'.entries = fs.entries.filter (fun e => keep e.1)

theorem keepShape_refl (fs : FS) : KeepShape fs fs :=
  ⟨rfl, fun _ => true, by simp⟩

theorem keepShape_trans {a b c : FS} (h1 : KeepShape a b)
    (h2 : KeepShape b c) : KeepShape a c := by
  obtain ⟨hw1, k1, he1⟩ := h1
  obtain ⟨hw2, k2, he2⟩ := h2
  refine ⟨hw2.trans hw1, fun s => k2 s && k1 s, ?_⟩
  rw [he2, he1, List.filter_filter]

theorem removeFS_fst_cases (fs : FS) (p : Str) :
    (removeFS fs p).1 = fs ∨
    (removeFS fs p).1
      = ⟨fs.wd, fs.entries.filter (fun e => !(e.1 == key fs.wd p))⟩ := by
  simp only [removeFS]
  cases hlk : lookupFS fs (key fs.wd p) with
  | none =>
    left
    simp [hlk]
  | some ek =>
    cases ek with
    | dir m =>
      by_cases h0 : key fs.wd p = []
      · left
        simp [hlk, h0]
      · by_cases hc : hasChildFS fs (key fs.wd p) = true
        · left
          simp [hlk, h0, hc]
        · right
          simp [hlk, h0, hc]
    | file m locked =>
      cases hl : locked with
      | true =>
        left
        simp [hlk]
      | false =>
        right
        simp [hlk]

theorem keepShape_removeFS (fs : FS) (p : Str) :
    KeepShape fs (removeFS fs p).1 := by
  rcases removeFS_fst_cases fs p with h | h
  · rw [h]; exact keepShape_refl fs
  · rw [h]
    exact ⟨rfl, fun s => !(s == key fs.wd p), rfl⟩

/-- Both branches of either report decision carry the same filesystem. -/
theorem ite_pair_fst {c : Prop} [Decidable c] (x : FS) (a b : List Str) :
    (if c then (x, a) else (x, b)).1 = x := by
  split <;> rfl

theorem keepShape_rmChild (recur : FS → Str → Bool → FS × Bool × List Str)
    (hrec : ∀ fs it, KeepShape fs (recur fs it false).1)
    (ignore : Bool) (st : FS × List Str) (it : Str) :
    KeepShape st.1 (rmChild recur ignore st it).1 := by
  simp only [rmChild]
  by_cases hd : is_directoryFS st.1 it = true
  · simp only [hd, if_true]
    by_cases hc1 : (!(recur st.1 it false).2.1 && !ignore) = true
    · simp only [hc1, if_true]
      exact hrec st.1 it
    · simp only [hc1, if_false, Bool.false_eq_true]
      by_cases hf : is_fileFS (recur st.1 it false).1 it = true
      · simp only [hf, if_true]
        have hks := keepShape_trans (hrec st.1 it)
          (keepShape_removeFS (recur st.1 it false).1 it)
        rw [ite_pair_fst]
        exact hks
      · simp only [hf, if_false, Bool.false_eq_true]
        exact hrec st.1 it
  · simp only [hd, if_false, Bool.false_eq_true]
    by_cases hf : is_fileFS st.1 it = true
    · simp only [hf, if_true]
      rw [ite_pair_fst]
      exact keepShape_removeFS st.1 it
    · simp only [hf, if_false, Bool.false_eq_true]
      exact keepShape_refl st.1

theorem keepShape_foldl (recur : FS → Str → Bool → FS × Bool × List Str)
    (hrec : ∀ fs it, KeepShape fs (recur fs it false).1) (ignore : Bool) :
    ∀ (l : List Str) (st : FS × List Str),
      KeepShape st.1 ((l.foldl (rmChild recur ignore) st).1) := by
  intro l
  induction l with
  | nil => intro st; exact keepShape_refl st.1
  | cons it rest ih =>
    intro st
    rw [List.foldl_cons]
    exact keepShape_trans (keepShape_rmChild recur hrec ignore st it) (ih _)

theorem keepShape_rmdirsF :
    ∀ (fuel : Nat) (fs : FS) (p : Str) (e : Bool),
      KeepShape fs (rmdirsF fuel fs p e).1 := by
  intro fuel
  induction fuel with
  | zero => intro fs p e; exact keepShape_refl fs
  | succ f ih =>
    intro fs p e
    simp only [rmdirsF]
    by_cases hd : is_directoryFS fs p = true
    · simp only [hd, Bool.not_true, Bool.false_eq_true, if_false]
      exact keepShape_trans
        (keepShape_foldl (rmdirsF f) (fun fs it => ih fs it false) e
          (listdir fs p) (fs, []))
        (keepShape_removeFS _ p)
    · have hd' : is_directoryFS fs p = false := by simpa using hd
      simp only [hd', Bool.not_false, if_true]
      exact keepShape_refl fs

theorem findEntry_filter_none (keep : Str → Bool)
    (l : List (Str × EntryKind)) (k : Str) (hk : keep k = false) :
    findEntry k (l.filter (fun e => keep e.1)) = none := by
  induction l with
  | nil => rfl
  | cons e rest ih =>
    simp only [List.filter_cons]
    by_cases hkeep : keep e.1 = true
    · rw [if_pos hkeep]
      simp only [findEntry]
      have hne : ¬ e.1 = k := by
        intro h
        rw [h, hk] at hkeep
        cases hkeep
      rw [if_neg hne]
      exact ih
    · rw [if_neg hkeep]
      exact ih

theorem findEntry_filter_keep (keep : Str → Bool)
    (l : List (Str × EntryKind)) (k : Str) (hk : keep k = true) :
    findEntry k (l.filter (fun e => keep e.1)) = findEntry k l := by
  induction l with
  | nil => rfl
  | cons e rest ih =>
    simp only [List.filter_cons]
    by_cases heq : e.1 = k
    · have hkeep : keep e.1 = true := by rw [heq]; exact hk
      rw [if_pos hkeep]
      simp only [findEntry]
      rw [if_pos heq, if_pos heq]
    · by_cases hkeep : keep e.1 = true
      · rw [if_pos hkeep]
        simp only [findEntry]
        rw [if_neg heq, if_neg heq]
        exact ih
      · rw [if_neg hkeep]
        conv_rhs => rw [show findEntry k (e :: rest) = findEntry k rest from by
          simp only [findEntry]
          rw [if_neg heq]]
        exact ih

/-- Key-class erasure can only keep a lookup intact or make it vanish:
it never exposes a different entry for the same key. -/
theorem lookup_keepShape {fs fs' : FS} (h : KeepShape fs fs') (k : Str) :
    lookupFS fs' k = lookupFS fs k ∨ lookupFS fs' k = none := by
  obtain ⟨hw, keep, he⟩ := h
  by_cases hk0 : k = []
  · left
    simp [lookupFS, hk0]
  · unfold lookupFS
    rw [if_neg hk0, if_neg hk0, he]
    by_cases hkeep : keep k = true
    · left
      rw [findEntry_filter_keep keep fs.entries k hkeep]
    · right
      rw [findEntry_filter_none keep fs.entries k (by simpa using hkeep)]

/-- After a (possibly failed) recursive removal of a directory, the
entry at its path is never a file. -/
theorem rmdirs_dir_not_file_after (f : Nat) (fs : FS) (it : Str) (e : Bool)
    (hd : is_directoryFS fs it = true) :
    is_fileFS (rmdirsF f fs it e).1 it = false := by
  have hks := keepShape_rmdirsF f fs it e
  have hw : ((rmdirsF f fs it e).1).wd = fs.wd := hks.1
  have hkey : key ((rmdirsF f fs it e).1).wd it = key fs.wd it := by rw [hw]
  unfold is_fileFS
  rw [hkey]
  rcases lookup_keepShape hks (key fs.wd it) with hl | hl
  · rw [hl]
    unfold is_directoryFS at hd
    cases hlk : lookupFS fs (key fs.wd it) with
    | none => simp [hlk] at hd
    | some ek =>
      rw [hlk] at hd
      cases ek with
      | dir m => rfl
      | file m locked => simp at hd
  · rw [hl]

/-- C4 (amended): a child failure never aborts `rmdirs` — traversal
always continues and the returned flag reflects only the final removal
of `p`; the `ignoreErrors` flag changes neither the filesystem effect
nor the returned flag, but only whether the top-level child failures
are reported (recursive calls pass the default `ignore_errors = false`,
so nested failures are reported regardless). -/
theorem rmdirs_ignore_only_affects_log (fuel : Nat) (fs : FS) (p : Str)
    (e1 e2 : Bool) :
    (rmdirsF fuel fs p e1).1 = (rmdirsF fuel fs p e2).1 ∧
    (rmdirsF fuel fs p e1).2.1 = (rmdirsF fuel fs p e2).2.1 := by
  induction fuel generalizing fs p e1 e2 with
  | zero => exact ⟨rfl, rfl⟩
  | succ f ih =>
    simp only [rmdirsF]
    by_cases hd : is_directoryFS fs p = true
    · simp only [hd, Bool.not_true, Bool.false_eq_true, if_false]
      have hstep : ∀ (fsA : FS) (logA logB : List Str) (it : Str),
          (rmChild (rmdirsF f) e1 (fsA, logA) it).1
            = (rmChild (rmdirsF f) e2 (fsA, logB) it).1 := by
        intro fsA logA logB it
        simp only [rmChild]
        by_cases hdir2 : is_directoryFS fsA it = true
        · simp only [hdir2, if_true]
          cases hok : (rmdirsF f fsA it false).2.1 with
          | true =>
            simp only [hok, Bool.not_true, Bool.false_and,
              Bool.false_eq_true, if_false]
            by_cases hf : is_fileFS (rmdirsF f fsA it false).1 it = true
            · simp only [hf, if_true]
              rw [ite_pair_fst, ite_pair_fst]
            · simp only [hf, if_false, Bool.false_eq_true]
          | false =>
            have hnf := rmdirs_dir_not_file_after f fsA it false hdir2
            simp only [hok, Bool.not_false, Bool.true_and, hnf,
              Bool.false_eq_true, if_false]
            cases e1 <;> cases e2 <;> simp
        · simp only [hdir2, if_false, Bool.false_eq_true]
          by_cases hf : is_fileFS fsA it = true
          · simp only [hf, if_true]
            rw [ite_pair_fst, ite_pair_fst]
          · simp only [hf, if_false, Bool.false_eq_true]
      have hfold : ∀ (l : List Str) (fsA fsB : FS) (logA logB : List Str),
          fsA = fsB →
          (l.foldl (rmChild (rmdirsF f) e1) (fsA, logA)).1
            = (l.foldl (rmChild (rmdirsF f) e2) (fsB, logB)).1 := by
        intro l
        induction l with
        | nil =>
          intro fsA fsB logA logB h
          simpa using h
        | cons it rest ihl =>
          intro fsA fsB logA logB h
          subst h
          rw [List.foldl_cons, List.foldl_cons]
          have h2 := ihl (rmChild (rmdirsF f) e1 (fsA, logA) it).1
            (rmChild (rmdirsF f) e2 (fsA, logB) it).1
            (rmChild (rmdirsF f) e1 (fsA, logA) it).2
            (rmChild (rmdirsF f) e2 (fsA, logB) it).2
            (hstep fsA logA logB it)
          simpa [Prod.mk.eta] using h2
      have h1 := hfold (listdir fs p) fs fs [] [] rfl
      constructor
      · rw [h1]
      · rw [h1]
    · have hd' : is_directoryFS fs p = false := by simpa using hd
      simp [hd']

end Apathy
